import Mathlib

/-!
# Verification of the webloom branching-document core

Shallow embedding of the webloom repository's layout engine
(`calculateLayout` / `calculateSubtreeHeight` in the TreeView component),
its streaming generation services (`AIService` / `OpenAIService`) and the
generation orchestration handler (`handleGenerateFromNode`), together with
proofs settling the frozen claims about them.

Machine numbers in the source are JS numbers; every value these functions
actually compute is an integer (the layout spacings are even, so halving is
exact), so coordinates are embedded as `Int`.  Stateful components are
embedded by explicit state passing; recursion that the source guards with
visited-sets is embedded with a fuel parameter that the top-level entry
points instantiate large enough that it is never the binding constraint.
-/

namespace WebLoom

/-- A node of the branching document, from `src/types/index.ts`
(`TreeNode`).  Only the fields the verified operations read are kept:
`text`, `parentId`, `children`, `bookmark`.  The node's `id` is the key it
is stored under in the tree's `nodes` record. -/
structure TreeNode where
  text : String
  parentId : Option String
  children : List String
  bookmark : Bool := false
deriving Repr, DecidableEq

/-- A document tree, from `src/types/index.ts` (`Tree`).  The `nodes`
record is embedded as an association list (id, node); JS object field
order plays no role in the verified operations beyond lookup. -/
structure Tree where
  rootId : String
  nodes : List (String × TreeNode)
  currentNodeId : String
deriving Repr, DecidableEq

/-! ## LayoutEngine

Embedding of `calculateLayout` from the TreeView component
(`src/unnamed/part_003`, lines 41-83; the same algorithm appears with
different spacing constants in the other TreeView variant).  The source
keeps two visited sets: the set named `visited` declared next to
`positions` is shared by every `calculateSubtreeHeight` call of one layout
pass (it is cleared once, before the pass), while the `layout` recursion
receives its own fresh set.  Both are threaded explicitly here. -/

/-- `horizontalSpacing` from part_003: spacing between tree levels. -/
def horizontalSpacing : Int := 350

/-- `verticalSpacing` from part_003: spacing between siblings. -/
def verticalSpacing : Int := 120

/-- The `node.children.reduce((sum, childId) => sum + ..., 0)` fold of
`calculateSubtreeHeight`, threading the shared visited set; `g` is the
height function applied to each child. -/
def heightList (g : String → List String → Int × List String) :
    List String → List String → Int × List String
  | [], hv => (0, hv)
  | c :: cs, hv =>
    let r := g c hv
    let s := heightList g cs r.2
    (r.1 + s.1, s.2)

/-- `calculateSubtreeHeight` from part_003 lines 47-57: returns 1 for a
missing or already-visited node (without marking it), otherwise marks the
node visited and returns 1 for a leaf or the sum of its children's
heights.  `fuel` bounds the nesting depth (each level of nesting marks a
fresh node id visited first, so any fuel above the node count is never
exhausted on the source's inputs). -/
def calculateSubtreeHeight (nodes : List (String × TreeNode)) :
    Nat → String → List String → Int × List String
  | 0, _, hv => (1, hv)
  | f + 1, nodeId, hv =>
    match nodes.lookup nodeId with
    | none => (1, hv)
    | some node =>
      if nodeId ∈ hv then (1, hv)
      else if node.children.isEmpty then (1, nodeId :: hv)
      else heightList
        (fun c hv' => calculateSubtreeHeight nodes f c hv')
        node.children (nodeId :: hv)

/-- The mutable state of one layout pass: the `positions` record being
filled in (newest assignment first), the height-side shared visited set
`hv`, and the `layout` recursion's own visited set `lv`. -/
structure LState where
  positions : List (String × Int × Int)
  hv : List String
  lv : List String
deriving Repr, DecidableEq

/-- The `node.children.forEach` loop of `layout` (part_003 lines 68-72):
each child's height is read from the height function `hfun` (which in
`calculateLayout` is `calculateSubtreeHeight` on the shared visited set,
as in the source), the child is placed at
`currentY + h * verticalSpacing / 2 - verticalSpacing / 2` by the layout
function `g`, and `currentY` becomes the child call's return value. -/
def layoutList (g : String → Int → Int → LState → Int × LState)
    (hfun : String → List String → Int × List String) :
    List String → Int → Int → LState → Int × LState
  | [], _, currentY, st => (currentY, st)
  | c :: cs', x, currentY, st =>
    let h := hfun c st.hv
    let childY := currentY + h.1 * verticalSpacing / 2 - verticalSpacing / 2
    let r := g c (x + horizontalSpacing) childY ⟨st.positions, h.2, st.lv⟩
    layoutList g hfun cs' x r.1 r.2

/-- The inner `layout` function of `calculateLayout` (part_003 lines
60-75): a missing or already-visited node returns `y` unchanged;
otherwise the node is marked visited, assigned `(x, y)`, its children are
laid out, and `max(currentY, y + verticalSpacing)` is returned. -/
def layoutNode (nodes : List (String × TreeNode)) (hfuel : Nat) :
    Nat → String → Int → Int → LState → Int × LState
  | 0, _, _, y, st => (y, st)
  | f + 1, nodeId, x, y, st =>
    match nodes.lookup nodeId with
    | none => (y, st)
    | some node =>
      if nodeId ∈ st.lv then (y, st)
      else
        let st1 : LState :=
          ⟨(nodeId, x, y) :: st.positions, st.hv, nodeId :: st.lv⟩
        let r := layoutList
          (fun nid xx yy stt => layoutNode nodes hfuel f nid xx yy stt)
          (fun c hv' => calculateSubtreeHeight nodes hfuel c hv')
          node.children x y st1
        (max r.1 (y + verticalSpacing), r.2)

/-- `calculateLayout(rootId, nodes)` from part_003 lines 41-83: clears the
shared height visited set, runs `layout(rootId, 0, 0, new Set())` and
returns the filled `positions` record.  Fuel is one more than the number
of stored nodes, which the recursion (guarded by the visited sets) can
never exhaust. -/
def calculateLayout (rootId : String) (nodes : List (String × TreeNode)) :
    List (String × Int × Int) :=
  let fuel := nodes.length + 1
  (layoutNode nodes fuel fuel rootId 0 0 ⟨[], [], []⟩).2.positions

/-! ### Layout invariants -/

/-- A height fold over children sums one value per child, each at least
1, so it is at least the number of children. -/
theorem heightList_ge (g : String → List String → Int × List String)
    (hg : ∀ c hv, 1 ≤ (g c hv).1) :
    ∀ (cs : List String) (hv : List String),
      (cs.length : Int) ≤ (heightList g cs hv).1 := by
  intro cs
  induction cs with
  | nil => intro hv; simp [heightList]
  | cons c cs' ihc =>
    intro hv
    have h1 := hg c hv
    have h2 := ihc (g c hv).2
    simp only [heightList, List.length_cons]
    push_cast
    omega

/-- Every subtree height the source computes is at least 1 (the `reduce`
over a non-empty children list sums values that are each at least 1, and
all other branches return 1 directly). -/
theorem calculateSubtreeHeight_ge_one (nodes : List (String × TreeNode)) :
    ∀ (fuel : Nat) (nodeId : String) (hv : List String),
      1 ≤ (calculateSubtreeHeight nodes fuel nodeId hv).1 := by
  intro fuel
  induction fuel with
  | zero => intro nodeId hv; simp [calculateSubtreeHeight]
  | succ f ih =>
    intro nodeId hv
    rw [calculateSubtreeHeight]
    cases hlk : nodes.lookup nodeId with
    | none => simp
    | some node =>
      simp only
      split
      · exact le_refl 1
      · split
        · exact le_refl 1
        · rename_i hne
          have hchn : node.children ≠ [] := by
            intro hc; rw [hc] at hne; simp at hne
          have hlen : 1 ≤ node.children.length := by
            cases hc : node.children with
            | nil => exact absurd hc hchn
            | cons a l => simp
          have := heightList_ge
            (fun c hv' => calculateSubtreeHeight nodes f c hv')
            (fun c hv' => ih c hv') node.children (nodeId :: hv)
          have hcast : (1 : Int) ≤ (node.children.length : Int) := by
            exact_mod_cast hlen
          omega

/-- Two position entries differ both in node id and in coordinate pair. -/
def posDistinct (a b : String × Int × Int) : Prop := a.1 ≠ b.1 ∧ a.2 ≠ b.2

/-- What one (sub)call of the layout recursion contributes: `newPos` is
the block of positions it pushed onto the pass state.  Every new entry
has x-coordinate at least `x` and y-coordinate between `lowY` and
`ret - verticalSpacing`; the new entries are pairwise distinct in id and
in coordinates; their ids were unvisited before the call and are visited
after it; and the layout visited set only grows. -/
def layoutInv (x lowY ret : Int) (st st' : LState)
    (newPos : List (String × Int × Int)) : Prop :=
  st'.positions = newPos ++ st.positions ∧
  (∀ e ∈ newPos, x ≤ e.2.1 ∧ lowY ≤ e.2.2 ∧ e.2.2 + verticalSpacing ≤ ret) ∧
  List.Pairwise posDistinct newPos ∧
  (∀ e ∈ newPos, e.1 ∉ st.lv ∧ e.1 ∈ st'.lv) ∧
  (∀ i ∈ st.lv, i ∈ st'.lv)

/-- The children loop preserves the layout invariant, given that each
single-node call `g` does and each height `hfun` returns is at least
1. -/
theorem layoutList_inv (g : String → Int → Int → LState → Int × LState)
    (hfun : String → List String → Int × List String)
    (hge : ∀ c hv, 1 ≤ (hfun c hv).1)
    (ihf : ∀ (nodeId : String) (x y : Int) (st : LState),
        y ≤ (g nodeId x y st).1 ∧
        ∃ newPos, layoutInv x y (g nodeId x y st).1 st
          (g nodeId x y st).2 newPos) :
    ∀ (cs : List String) (x cy : Int) (st : LState),
      cy ≤ (layoutList g hfun cs x cy st).1 ∧
      ∃ newPos, layoutInv (x + horizontalSpacing) cy
        (layoutList g hfun cs x cy st).1 st
        (layoutList g hfun cs x cy st).2 newPos := by
  intro cs
  induction cs with
  | nil =>
    intro x cy st
    refine ⟨by simp [layoutList], ⟨[], ?_⟩⟩
    simp [layoutInv, layoutList]
  | cons c cs' ih =>
    intro x cy st
    have hgeone := hge c st.hv
    simp only [layoutList]
    set h := hfun c st.hv with hh
    set childY := cy + h.1 * verticalSpacing / 2 - verticalSpacing / 2 with hcydef
    set stmid : LState := ⟨st.positions, h.2, st.lv⟩ with hstmid
    set r := g c (x + horizontalSpacing) childY stmid with hr
    have hcy_le : cy ≤ childY := by
      rw [hcydef]
      simp only [verticalSpacing]
      omega
    obtain ⟨hle1, p1, hinv1⟩ := ihf c (x + horizontalSpacing) childY stmid
    obtain ⟨hle2, p2, hinv2⟩ := ih x r.1 r.2
    rw [← hr] at hinv1 hle1
    obtain ⟨hpos1, hbnd1, hpw1, hfresh1, hmono1⟩ := hinv1
    obtain ⟨hpos2, hbnd2, hpw2, hfresh2, hmono2⟩ := hinv2
    refine ⟨le_trans hcy_le (le_trans hle1 hle2), ⟨p2 ++ p1, ?_, ?_, ?_, ?_, ?_⟩⟩
    · -- positions stack up
      rw [hpos2, hpos1]
      simp [hstmid, List.append_assoc]
    · -- entry bounds
      intro e he
      rcases List.mem_append.1 he with h2 | h1
      · obtain ⟨hx, hy, hyr⟩ := hbnd2 e h2
        exact ⟨hx, le_trans (le_trans hcy_le hle1) hy, hyr⟩
      · obtain ⟨hx, hy, hyr⟩ := hbnd1 e h1
        refine ⟨hx, le_trans hcy_le hy, le_trans hyr hle2⟩
    · -- pairwise distinct
      rw [List.pairwise_append]
      refine ⟨hpw2, hpw1, ?_⟩
      intro a ha b hb
      have hbmem := hfresh1 b hb
      have hamem := hfresh2 a ha
      constructor
      · -- distinct ids : b is visited after the first call, a is fresh then
        intro hab
        exact hamem.1 (hab ▸ hbmem.2)
      · -- distinct coordinates : b.y + V ≤ r.1 ≤ a.y
        obtain ⟨_, hay, _⟩ := hbnd2 a ha
        obtain ⟨_, _, hbyr⟩ := hbnd1 b hb
        intro hab
        have : a.2.2 = b.2.2 := congrArg Prod.snd hab
        simp only [verticalSpacing] at hbyr
        omega
    · -- freshness
      intro e he
      rcases List.mem_append.1 he with h2 | h1
      · have := hfresh2 e h2
        refine ⟨fun hin => this.1 (hmono1 _ hin), this.2⟩
      · have := hfresh1 e h1
        exact ⟨this.1, hmono2 _ this.2⟩
    · -- lv monotone
      intro i hi
      exact hmono2 _ (hmono1 _ hi)

/-- Main invariant of the `layout` recursion: the block of positions a
call contributes is pairwise distinct in ids and in coordinate pairs and
lies in the vertical band the call was given. -/
theorem layoutNode_inv (nodes : List (String × TreeNode)) (hfuel : Nat) :
    ∀ (fuel : Nat) (nodeId : String) (x y : Int) (st : LState),
      y ≤ (layoutNode nodes hfuel fuel nodeId x y st).1 ∧
      ∃ newPos, layoutInv x y (layoutNode nodes hfuel fuel nodeId x y st).1 st
        (layoutNode nodes hfuel fuel nodeId x y st).2 newPos := by
  intro fuel
  induction fuel with
  | zero =>
    intro nodeId x y st
    refine ⟨by simp [layoutNode], ⟨[], ?_⟩⟩
    simp [layoutInv, layoutNode]
  | succ f ihf =>
    have hchild := layoutList_inv
      (fun nid xx yy stt => layoutNode nodes hfuel f nid xx yy stt)
      (fun c hv' => calculateSubtreeHeight nodes hfuel c hv')
      (fun c hv' => calculateSubtreeHeight_ge_one nodes hfuel c hv')
      (fun nid xx yy stt => ihf nid xx yy stt)
    intro nodeId x y st
    rw [layoutNode]
    cases hlk : nodes.lookup nodeId with
    | none =>
      refine ⟨by simp, ⟨[], ?_⟩⟩
      simp [layoutInv]
    | some node =>
      simp only
      by_cases hmem : nodeId ∈ st.lv
      · simp only [if_pos hmem]
        refine ⟨le_refl y, ⟨[], ?_⟩⟩
        simp [layoutInv]
      · simp only [if_neg hmem]
        set st1 : LState := ⟨(nodeId, x, y) :: st.positions, st.hv, nodeId :: st.lv⟩
          with hst1
        set r := layoutList
          (fun nid xx yy stt => layoutNode nodes hfuel f nid xx yy stt)
          (fun c hv' => calculateSubtreeHeight nodes hfuel c hv')
          node.children x y st1 with hr
        obtain ⟨hle, pc, hinv⟩ := hchild node.children x y st1
        rw [← hr] at hinv hle
        obtain ⟨hpos, hbnd, hpw, hfresh, hmono⟩ := hinv
        have hV : (0 : Int) < verticalSpacing := by simp [verticalSpacing]
        have hH : (0 : Int) < horizontalSpacing := by simp [horizontalSpacing]
        refine ⟨?_, ⟨pc ++ [(nodeId, x, y)], ?_, ?_, ?_, ?_, ?_⟩⟩
        · have : y ≤ y + verticalSpacing := by omega
          exact le_trans this (le_max_right _ _)
        · -- positions
          rw [hpos]
          simp [hst1, List.append_assoc]
        · -- bounds
          intro e he
          rcases List.mem_append.1 he with hc | hp
          · obtain ⟨hx, hy, hyr⟩ := hbnd e hc
            refine ⟨le_trans (by omega) hx, hy, le_trans hyr (le_max_left _ _)⟩
          · simp only [List.mem_singleton] at hp
            subst hp
            refine ⟨le_refl x, le_refl y, le_max_right _ _⟩
        · -- pairwise
          rw [List.pairwise_append]
          refine ⟨hpw, List.pairwise_singleton _ _, ?_⟩
          intro a ha b hb
          simp only [List.mem_singleton] at hb
          subst hb
          constructor
          · intro hab
            have := (hfresh a ha).1
            rw [hab] at this
            exact this (by simp [hst1])
          · obtain ⟨hx, _, _⟩ := hbnd a ha
            intro hab
            have : a.2.1 = x := congrArg Prod.fst hab
            omega
        · -- freshness
          intro e he
          rcases List.mem_append.1 he with hc | hp
          · have := hfresh e hc
            refine ⟨fun hin => this.1 (by simp [hst1, hin]), this.2⟩
          · simp only [List.mem_singleton] at hp
            subst hp
            refine ⟨hmem, hmono _ (by simp [hst1])⟩
        · -- lv monotone
          intro i hi
          exact hmono _ (by simp [hst1, hi])

/-- C2.  `calculateLayout` never assigns two distinct entries the same
coordinate pair (and never assigns one node two positions): the returned
position list is pairwise distinct both in node id and in `(x, y)` pair,
for every node map and root — in particular for every acyclic tree of
any size.  It is also deterministic and stateless between calls: it is a
pure function of `(rootId, nodes)`, so two runs on the same node map with
the same children orderings are definitionally equal. -/
theorem layout_positions_injective_and_deterministic
    (rootId : String) (nodes : List (String × TreeNode)) :
    List.Pairwise posDistinct (calculateLayout rootId nodes) ∧
    calculateLayout rootId nodes = calculateLayout rootId nodes := by
  refine ⟨?_, rfl⟩
  unfold calculateLayout
  obtain ⟨-, p, hinv⟩ :=
    layoutNode_inv nodes (nodes.length + 1) (nodes.length + 1) rootId 0 0 ⟨[], [], []⟩
  obtain ⟨hpos, -, hpw, -, -⟩ := hinv
  simp only at hpos
  rw [hpos]
  simpa using hpw

/-! ### The subtree-extent claim (C3)

The spec states that children are offset on the secondary axis using the
true, recursively computed leaf-slot count of each child's subtree
(extent = 1 for a node with zero children).  The source's
`calculateSubtreeHeight` shares one visited set across all height queries
of a layout pass and returns 1 — not the memoized height — for a node it
has already seen, so every height query made below the first tree level
returns 1 regardless of the child's real subtree.  The definitions below
state the spec's extent for comparison. -/

/-- Sum of spec-side extents over a children list. -/
def specExtentSum (g : String → Int) : List String → Int
  | [] => 0
  | c :: cs' => g c + specExtentSum g cs'

/-- Modelled from the spec: the "subtree extent (count of leaf-reachable
slots)" of §4.2, computed recursively with no shared visited state:
extent = 1 for a missing node or a node with zero children, otherwise the
sum of the children's extents.  Clearly named spec-side definition, used
only to compare against the source's `calculateSubtreeHeight`. -/
def specExtent (nodes : List (String × TreeNode)) :
    Nat → String → Int
  | 0, _ => 1
  | f + 1, nodeId =>
    match nodes.lookup nodeId with
    | none => 1
    | some node =>
      if node.children.isEmpty then 1
      else specExtentSum (fun c => specExtent nodes f c) node.children

/-- The concrete six-node tree exhibiting the height bug: root `r` has
the single child `a`; `a` has children `b` and `c`; `b` has leaf children
`d` and `e`. -/
def bugNodes : List (String × TreeNode) :=
  [("r", ⟨"root", none, ["a"], false⟩),
   ("a", ⟨"A", some "r", ["b", "c"], false⟩),
   ("b", ⟨"B", some "a", ["d", "e"], false⟩),
   ("c", ⟨"C", some "a", [], false⟩),
   ("d", ⟨"D", some "b", [], false⟩),
   ("e", ⟨"E", some "b", [], false⟩)]

/-- C3 (code bug).  In `calculateLayout` on `bugNodes`, node `a` sits at
`(350, 120)`, so its children loop starts with `currentY = 120`; the true
subtree extent of its first child `b` is 2 (leaves `d`, `e`), so the
spec's stacking rule `currentY + extent * verticalSpacing / 2 -
verticalSpacing / 2` places `b` at y = 180.  The code instead places `b`
at y = 120: by the time `layout(a)` asks for `b`'s height, `b` is already
in the visited set shared with the earlier height query made at the root,
and `calculateSubtreeHeight` answers 1 instead of the memoized 2 — the
laid-out offset does not use the true subtree extent. -/
theorem layout_child_offset_ignores_true_extent :
    (calculateLayout "r" bugNodes).lookup "a" = some (350, 120) ∧
    (calculateLayout "r" bugNodes).lookup "b" = some (700, 120) ∧
    specExtent bugNodes 7 "b" = 2 ∧
    (120 : Int) + specExtent bugNodes 7 "b" * verticalSpacing / 2 -
      verticalSpacing / 2 = 180 ∧
    ((120 : Int), (120 : Int)) ≠ (120, 180) := by
  refine ⟨by rfl, by rfl, by rfl, by rfl, by decide⟩

/-! ## Streaming generation services

Embedding of `AIService.generateStreaming` / `generateSingleStreaming`
(`src/src/services/aiService.ts` lines 50-69 and 166-201) and the
identically-structured `OpenAIService` (`src/src/services/openai.ts`
lines 18-69).  The backend's behavior for one completion is abstracted as
the list of text deltas its stream yields plus whether the stream
finishes normally or throws; prompt and model routing do not affect the
event discipline being verified. -/

/-- One invocation of the `onChunk(completionIndex, text, done)`
callback. -/
structure ChunkEvent where
  completionIndex : Nat
  text : String
  done : Bool
deriving Repr, DecidableEq

/-- A provider stream for one completion, as the service observes it:
the deltas the stream yields in order, and whether it terminates
normally (`ok = true`) or throws after its last delta (`ok = false`). -/
structure StreamRun where
  deltas : List String
  ok : Bool
deriving Repr, DecidableEq

/-- The `for await (const textPart of result.textStream) { fullText +=
textPart; onChunk(completionIndex, fullText, false) }` loop of
`generateSingleStreaming` (aiService.ts lines 194-197): each delta
extends the accumulator and fires one non-final callback carrying the
accumulator. -/
def streamLoop (i : Nat) : String → List String → List ChunkEvent
  | _, [] => []
  | fullText, d :: ds =>
    ⟨i, fullText ++ d, false⟩ :: streamLoop i (fullText ++ d) ds

/-- The final value of the `fullText` accumulator after the loop. -/
def accumText : String → List String → String
  | fullText, [] => fullText
  | fullText, d :: ds => accumText (fullText ++ d) ds

/-- `generateSingleStreaming` (aiService.ts lines 166-201, openai.ts
lines 34-69): streams one completion, firing a non-final callback per
delta with the accumulated text and, if the stream terminates normally,
a final callback with the complete text (`onChunk(completionIndex,
fullText, true)`).  A stream that throws propagates the exception
(`none`) after the callbacks already fired. -/
def generateSingleStreaming (i : Nat) (run : StreamRun) :
    List ChunkEvent × Option String :=
  let evs := streamLoop i "" run.deltas
  if run.ok then
    let fullText := accumText "" run.deltas
    (evs ++ [⟨i, fullText, true⟩], some fullText)
  else (evs, none)

/-- The `for (let i = 0; i < settings.num_continuations; i++) { await
this.generateSingleStreaming(prompt, settings, i, onChunk) }` loop of
`generateStreaming` (aiService.ts lines 55-64): completions are awaited
strictly sequentially, and an exception from one completion propagates
out of the loop (the surrounding `try/catch` rethrows), skipping all
later indexes. -/
def generateStreamingLoop (oracle : Nat → StreamRun) :
    Nat → Nat → List ChunkEvent × Bool
  | _, 0 => ([], true)
  | i, k + 1 =>
    let r := generateSingleStreaming i (oracle i)
    match r.2 with
    | none => (r.1, false)
    | some _ =>
      let rest := generateStreamingLoop oracle (i + 1) k
      (r.1 ++ rest.1, rest.2)

/-- `generateStreaming` (aiService.ts lines 50-69): runs
`num_continuations` completions sequentially from index 0.  The result
is the full callback-event sequence and whether the request completed
without an exception. -/
def generateStreaming (numContinuations : Nat) (oracle : Nat → StreamRun) :
    List ChunkEvent × Bool :=
  generateStreamingLoop oracle 0 numContinuations

/-! ### Accumulation (C7) -/

theorem string_join_cons (d : String) (l : List String) :
    String.join (d :: l) = d ++ String.join l := by
  apply String.ext
  simp

theorem string_join_nil : String.join [] = "" := rfl

theorem accumText_eq (ds : List String) :
    ∀ acc, accumText acc ds = acc ++ String.join ds := by
  induction ds with
  | nil =>
    intro acc
    rw [accumText, string_join_nil, String.append_empty]
  | cons d ds ih =>
    intro acc
    rw [accumText, ih, string_join_cons, String.append_assoc]

theorem streamLoop_eq (i : Nat) (ds : List String) :
    ∀ acc, streamLoop i acc ds =
      (List.range ds.length).map
        (fun k => ⟨i, acc ++ String.join (ds.take (k + 1)), false⟩) := by
  induction ds with
  | nil => intro acc; simp [streamLoop]
  | cons d ds ih =>
    intro acc
    rw [streamLoop, ih (acc ++ d)]
    simp [List.range_succ_eq_map, List.map_map, Function.comp,
      string_join_cons, string_join_nil, String.append_empty,
      String.append_assoc]

/-- C7.  Every chunk callback of one completion receives the full
accumulated text so far — the k-th non-final callback carries the
concatenation of the first k+1 deltas, not a single delta — and, when
the stream terminates normally, the final (`done = true`) callback and
the function's result carry the complete generated text, the
concatenation of all deltas. -/
theorem chunk_callbacks_receive_accumulated_text (i : Nat) (run : StreamRun) :
    (generateSingleStreaming i run).1 =
      (List.range run.deltas.length).map
        (fun k => ⟨i, String.join (run.deltas.take (k + 1)), false⟩) ++
      (if run.ok then [⟨i, String.join run.deltas, true⟩] else []) ∧
    (generateSingleStreaming i run).2 =
      (if run.ok then some (String.join run.deltas) else none) := by
  have hloop := streamLoop_eq i run.deltas ""
  have hacc := accumText_eq run.deltas ""
  simp only [String.empty_append] at hloop hacc
  unfold generateSingleStreaming
  cases hok : run.ok with
  | true => simp [hloop, hacc]
  | false => simp [hloop, hacc]

/-! ## The completions-API streaming adapter (C8)

Embedding of `AIService.generateCompletionStreaming`
(`src/src/services/aiService.ts` lines 71-164).  The HTTP response is the
input; `JSON.parse` followed by `parsed.choices?.[0]?.text || ''` is
abstracted as a `parse` oracle returning `none` exactly when
`JSON.parse` throws (that branch of the source ignores the line) and
`some text` otherwise (with `text = ""` when the parsed object has no
choice text). -/

/-- An HTTP response as `fetch` presents it to the adapter: the `ok`,
`status` and `statusText` fields and the body reader's decoded chunk
sequence (`none` models a missing `response.body`). -/
structure HttpResponse where
  ok : Bool
  status : Nat
  statusText : String
  body : Option (List String)
deriving Repr, DecidableEq

/-- `chunk.split('\n')`, embedded character-wise (Lean's own
`String.splitOn` is not kernel-reducible): splits a character list at
every occurrence of the separator, keeping empty segments, as the JS
`split` does. -/
def splitOnChar (c : Char) : List Char → List (List Char)
  | [] => [[]]
  | x :: xs =>
    let r := splitOnChar c xs
    if x = c then [] :: r
    else
      match r with
      | [] => [[x]]
      | g :: gs => (x :: g) :: gs

/-- The newline split of one decoded chunk. -/
def splitLines (s : String) : List String :=
  (splitOnChar '\n' s.data).map (fun cs => String.mk cs)

/-- `line.trim() === ''`: the line consists of whitespace only. -/
def isBlankLine (l : String) : Bool :=
  l.data.all (fun ch => ch.isWhitespace)

/-- Processing of one SSE line (aiService.ts lines 140-155): lines not
starting with the `data: ` marker (`line.startsWith('data: ')`, embedded
as a comparison of the first six characters) are skipped, the `[DONE]`
payload is skipped, a line whose payload fails to parse is silently
ignored (`catch (e) { /* ignore */ }` in the source), and an empty
extracted text is skipped by `if (text)`. -/
def extractLineText (parse : String → Option String) (line : String) :
    Option String :=
  if List.take 6 line.data = ("data: ").data then
    let data := String.mk (List.drop 6 line.data)
    if data = "[DONE]" then none
    else
      match parse data with
      | none => none
      | some text => if text = "" then none else some text
  else none

/-- The reader loop of `generateCompletionStreaming` (aiService.ts lines
132-157): each decoded chunk is split on newlines, blank lines are
dropped (`filter(line => line.trim() !== '')`), and the remaining lines
are processed in order; the result is the sequence of non-empty
extracted texts. -/
def extractTexts (parse : String → Option String) (chunks : List String) :
    List String :=
  ((chunks.map fun chunk =>
      (splitLines chunk).filter (fun l => ! isBlankLine l)).flatten).filterMap
    (extractLineText parse)

/-- `generateCompletionStreaming` (aiService.ts lines 71-164): a non-OK
response throws `Completions API error: ...`, a missing body throws
`No response body`, and otherwise every extracted text extends
`fullText` and fires a non-final callback, with a final callback
`onChunk(completionIndex, fullText, true)` after the stream ends.  The
result is the callback-event list, or the thrown message. -/
def generateCompletionStreaming (parse : String → Option String) (i : Nat)
    (resp : HttpResponse) : Except String (List ChunkEvent) :=
  if ¬ resp.ok then
    Except.error
      ("Completions API error: " ++ toString resp.status ++ " " ++
        resp.statusText)
  else
    match resp.body with
    | none => Except.error "No response body"
    | some chunks =>
      let texts := extractTexts parse chunks
      Except.ok (streamLoop i "" texts ++ [⟨i, accumText "" texts, true⟩])

/-- C8 (counterexample).  A malformed stream frame does not make the
completion fail: on an OK response whose only frame has an unparseable
payload (the parse oracle throws on every payload), the adapter
completes successfully, firing the final callback with the empty string
— exactly the silent empty-text completion the claim rules out. -/
theorem malformed_frame_completes_successfully :
    generateCompletionStreaming (fun _ => none) 0
      ⟨true, 200, "OK", some ["data: notjson\n"]⟩ =
      Except.ok [⟨0, "", true⟩] := by rfl

/-- In the absence of any parseable payload, no text is extracted. -/
theorem extractLineText_of_parse_none (parse : String → Option String)
    (hp : ∀ s, parse s = none) (line : String) :
    extractLineText parse line = none := by
  unfold extractLineText
  split
  · simp only [hp]
    split <;> rfl
  · rfl

/-- C8 (amended).  A non-OK HTTP status or a missing body is surfaced as
a thrown error, never as a successful completion; but malformed stream
frames are silently skipped rather than surfaced: on any OK response the
adapter succeeds with the extracted texts of the parseable frames only,
and when every payload is unparseable it completes successfully with the
empty string as the final text. -/
theorem transport_error_surfacing_amended (parse : String → Option String)
    (i : Nat) (resp : HttpResponse) :
    (resp.ok = false →
      generateCompletionStreaming parse i resp =
        Except.error
          ("Completions API error: " ++ toString resp.status ++ " " ++
            resp.statusText)) ∧
    (resp.ok = true → resp.body = none →
      generateCompletionStreaming parse i resp =
        Except.error "No response body") ∧
    (∀ chunks, resp.ok = true → resp.body = some chunks →
      generateCompletionStreaming parse i resp =
        Except.ok (streamLoop i "" (extractTexts parse chunks) ++
          [⟨i, accumText "" (extractTexts parse chunks), true⟩])) ∧
    (∀ chunks, resp.ok = true → resp.body = some chunks →
      (∀ s, parse s = none) →
      generateCompletionStreaming parse i resp =
        Except.ok [⟨i, "", true⟩]) := by
  refine ⟨?_, ?_, ?_, ?_⟩
  · intro hok
    unfold generateCompletionStreaming
    rw [hok]
    simp
  · intro hok hbody
    unfold generateCompletionStreaming
    rw [hok, hbody]
    simp
  · intro chunks hok hbody
    unfold generateCompletionStreaming
    rw [hok, hbody]
    simp
  · intro chunks hok hbody hp
    unfold generateCompletionStreaming
    rw [hok, hbody]
    have htexts : extractTexts parse chunks = [] := by
      unfold extractTexts
      rw [List.filterMap_eq_nil_iff]
      intro a _
      exact extractLineText_of_parse_none parse hp a
    simp [htexts, streamLoop, accumText]

/-- Closed instance of the amended C8 theorem: an OK response whose
frames are a `[DONE]` marker and an unparseable payload completes
successfully with empty final text. -/
theorem transport_error_surfacing_amended_witness :
    generateCompletionStreaming (fun _ => none) 1
      ⟨true, 200, "OK", some ["data: [DONE]\n", "data: oops\n"]⟩ =
      Except.ok [⟨1, "", true⟩] :=
  (transport_error_surfacing_amended (fun _ => none) 1
    ⟨true, 200, "OK", some ["data: [DONE]\n", "data: oops\n"]⟩).2.2.2
    ["data: [DONE]\n", "data: oops\n"] rfl rfl (fun _ => rfl)

/-! ## Document store operations

The tree store itself (`useTreeStore`, `src/stores/treeStore.ts`) is not
among the repository files under `src/`; only its callers are.  The two
operations the generation orchestration uses are therefore modelled from
the spec (§4.1). -/

/-- A fresh node id drawn from a counter; the spec only requires ids to
be unique and stable, so the supply is abstracted as a counter. -/
def freshId (counter : Nat) : String := "gen-" ++ toString counter

/-- Append `newId` to the children list of every entry keyed
`parentId`. -/
def setChildAppended (nodes : List (String × TreeNode))
    (parentId newId : String) : List (String × TreeNode) :=
  nodes.map (fun p =>
    if p.1 = parentId then (p.1, { p.2 with children := p.2.children ++ [newId] })
    else p)

/-- Modelled from the spec: `createNode(treeId, text, parentId)` of §4.1
— fails with `NotFound` when the parent does not exist (embedded as a
no-op on the tree, since the orchestration code never inspects that
error), otherwise appends a fresh node id to `nodes[parentId].children`
(ordering = call order) and registers the new node with the given text.
Timestamps are not modelled. -/
def createNode (t : Tree) (counter : Nat) (text : String)
    (parentId : String) : Tree × Nat :=
  match t.nodes.lookup parentId with
  | none => (t, counter)
  | some _ =>
    let newId := freshId counter
    ({ t with nodes := setChildAppended t.nodes parentId newId ++
        [(newId, ⟨text, some parentId, [], false⟩)] },
     counter + 1)

/-- Walk of the parent links from a node towards the root (newest
first); fuel bounds the walk, one more than the node count at the top
level. -/
def ancestryChain (t : Tree) : Nat → String → List TreeNode
  | 0, _ => []
  | f + 1, nid =>
    match t.nodes.lookup nid with
    | none => []
    | some node =>
      match node.parentId with
      | none => [node]
      | some p => node :: ancestryChain t f p

/-- Modelled from the spec: `getAncestry(treeId, nodeId)` of §4.1 —
walks parent links from the node to the root, then reverses, producing
the root-first linear context used as the generation prompt. -/
def getAncestry (t : Tree) (nodeId : String) : List TreeNode :=
  (ancestryChain t (t.nodes.length + 1) nodeId).reverse

/-- `ancestry.map((node) => node.text).join('\n')`: the JS
`Array.prototype.join` with a newline separator. -/
def joinNL : List String → String
  | [] => ""
  | [s] => s
  | s :: rest => s ++ "\n" ++ joinNL rest

/-! ## Generation orchestration

Embedding of `handleGenerateFromNode` from the TreeView component
(`src/unnamed/part_003` lines 93-167).  React state setters become
explicit fields of an orchestration state; the chunk callbacks fire in
order during the awaited provider call, which under the single-threaded
cooperative scheduler is the same as folding the event list over the
state.  A trace of actions records the order of the side effects the
claims speak about. -/

/-- `GenerationSettings` from `src/types/index.ts`; temperature is
carried but does not influence the verified control flow. -/
structure GenerationSettings where
  model : String
  num_continuations : Nat
  temperature : Int
deriving Repr, DecidableEq

/-- Outcome of one generation request. -/
inductive GenResult where
  | alreadyInProgress
  | emptyPrompt
  | configMissing
  | providerError
  | success
deriving Repr, DecidableEq

/-- Observable actions of one request, in program order. -/
inductive Act where
  | addGenerating (nodeId : String)
  | readAncestry (nodeId : String)
  | awaitProvider
  | commitNode (text : String) (parentId : String)
  | removeGenerating (nodeId : String)
deriving Repr, DecidableEq

/-- The orchestration state: the `generatingNodes` set, the
`streamingNodes` map (keyed `nodeId-completionIndex`), the document
tree, and the fresh-id counter of the store model. -/
structure OrchState where
  generating : List String
  streaming : List (String × String)
  tree : Tree
  counter : Nat
deriving Repr, DecidableEq

/-- The ephemeral streaming key `` `${nodeId}-${completionIndex}` ``. -/
def streamKey (nodeId : String) (i : Nat) : String :=
  nodeId ++ "-" ++ toString i

/-- JS `Map.set`. -/
def mapSet (m : List (String × String)) (k v : String) :
    List (String × String) :=
  if m.any (fun p => p.1 == k) then
    m.map (fun p => if p.1 = k then (k, v) else p)
  else m ++ [(k, v)]

/-- JS `Map.delete`. -/
def mapDelete (m : List (String × String)) (k : String) :
    List (String × String) :=
  m.filter (fun p => ! (p.1 == k))

/-- The chunk callback of `handleGenerateFromNode` (part_003 lines
134-153): a non-final chunk only updates the ephemeral streaming map;
a final chunk commits the completed text as a new child of `nodeId` via
`createNode` and clears the streaming entry. -/
def processChunk (nodeId : String) (st : OrchState) (ev : ChunkEvent) :
    OrchState × List Act :=
  if ev.done then
    let r := createNode st.tree st.counter ev.text nodeId
    ({ st with
        tree := r.1,
        counter := r.2,
        streaming := mapDelete st.streaming (streamKey nodeId ev.completionIndex) },
     [Act.commitNode ev.text nodeId])
  else
    ({ st with
        streaming := mapSet st.streaming (streamKey nodeId ev.completionIndex) ev.text },
     [])

/-- Folding a callback-event sequence over the orchestration state, in
arrival order. -/
def processChunks (nodeId : String) :
    OrchState → List ChunkEvent → OrchState × List Act
  | st, [] => (st, [])
  | st, ev :: evs =>
    let r := processChunk nodeId st ev
    let s := processChunks nodeId r.1 evs
    (s.1, r.2 ++ s.2)

/-- `handleGenerateFromNode` (part_003 lines 93-167): rejects a node
already generating; otherwise inserts the node id into the generating
set (before any `await`), builds the prompt from the ancestry, returns
early on a blank prompt, throws on a missing model config, and otherwise
awaits the streaming generation, folding each chunk callback into the
state.  The `finally` block removes the node id from the generating set
on every outcome (the early-return path removes it explicitly first; the
removal is idempotent). -/
def handleGenerateFromNode (settings : GenerationSettings)
    (haveConfig : Bool) (oracle : Nat → StreamRun) (nodeId : String)
    (st : OrchState) : GenResult × OrchState × List Act :=
  if nodeId ∈ st.generating then (GenResult.alreadyInProgress, st, [])
  else
    let st1 : OrchState := { st with generating := nodeId :: st.generating }
    let ancestry := getAncestry st.tree nodeId
    let prompt := joinNL (ancestry.map (fun n => n.text))
    if isBlankLine prompt then
      (GenResult.emptyPrompt,
       { st1 with generating := st1.generating.erase nodeId },
       [Act.addGenerating nodeId, Act.readAncestry nodeId,
        Act.removeGenerating nodeId])
    else if ¬ haveConfig then
      (GenResult.configMissing,
       { st1 with generating := st1.generating.erase nodeId },
       [Act.addGenerating nodeId, Act.readAncestry nodeId,
        Act.removeGenerating nodeId])
    else
      let r := generateStreaming settings.num_continuations oracle
      let p := processChunks nodeId st1 r.1
      ((if r.2 then GenResult.success else GenResult.providerError),
       { p.1 with generating := p.1.generating.erase nodeId },
       [Act.addGenerating nodeId, Act.readAncestry nodeId,
        Act.awaitProvider] ++ p.2 ++ [Act.removeGenerating nodeId])

/-! ### Re-entrancy and lock discipline (C4, C5) -/

/-- A one-node tree and idle orchestration state used as concrete
witnesses. -/
def rootOnlyTree : Tree := ⟨"r", [("r", ⟨"hi", none, [], false⟩)], "r"⟩

/-- Idle orchestration state over `rootOnlyTree`. -/
def idleState : OrchState := ⟨[], [], rootOnlyTree, 0⟩

/-- C4.  A generation request for a node already in the generating set
is rejected up front: it reports already-in-progress, returns the state
unchanged (no tree mutation, no generating-set mutation), and performs
no action at all — no ancestry read, no provider call, no commit. -/
theorem already_generating_request_rejected
    (settings : GenerationSettings) (haveConfig : Bool)
    (oracle : Nat → StreamRun) (nodeId : String) (st : OrchState)
    (h : nodeId ∈ st.generating) :
    handleGenerateFromNode settings haveConfig oracle nodeId st =
      (GenResult.alreadyInProgress, st, []) := by
  unfold handleGenerateFromNode
  rw [if_pos h]

/-- Closed instance of C4 at a concrete generating state. -/
theorem already_generating_request_rejected_witness :
    (("r" : String) ∈ (["r"] : List String)) ∧
    handleGenerateFromNode ⟨"m", 1, 1⟩ true (fun _ => ⟨[], true⟩) "r"
      ⟨["r"], [], rootOnlyTree, 0⟩ =
      (GenResult.alreadyInProgress, ⟨["r"], [], rootOnlyTree, 0⟩, []) :=
  ⟨by decide,
   already_generating_request_rejected ⟨"m", 1, 1⟩ true (fun _ => ⟨[], true⟩)
     "r" ⟨["r"], [], rootOnlyTree, 0⟩ (by decide)⟩

/-- Processing chunk callbacks never touches the generating set. -/
theorem processChunks_generating (nodeId : String) :
    ∀ (evs : List ChunkEvent) (st : OrchState),
      (processChunks nodeId st evs).1.generating = st.generating := by
  intro evs
  induction evs with
  | nil => intro st; rfl
  | cons ev evs ih =>
    intro st
    simp only [processChunks]
    rw [ih]
    unfold processChunk
    split <;> rfl

/-- C5.  When a request actually starts (its node is not yet
generating), the insertion into the generating set is the first action —
in particular it precedes every suspension point (`awaitProvider` never
occurs at trace position 0) — and on every possible outcome (empty
prompt, missing config, provider failure, success) the last action
removes the node from the generating set and the final state's
generating set no longer contains the node. -/
theorem generating_lock_inserted_before_await_and_released
    (settings : GenerationSettings) (haveConfig : Bool)
    (oracle : Nat → StreamRun) (nodeId : String) (st : OrchState)
    (h : nodeId ∉ st.generating) :
    (handleGenerateFromNode settings haveConfig oracle nodeId st).2.2.head? =
      some (Act.addGenerating nodeId) ∧
    (∀ k, (handleGenerateFromNode settings haveConfig oracle nodeId
        st).2.2.get? k = some Act.awaitProvider → 1 ≤ k) ∧
    (handleGenerateFromNode settings haveConfig oracle nodeId
        st).2.2.getLast? = some (Act.removeGenerating nodeId) ∧
    nodeId ∉
      (handleGenerateFromNode settings haveConfig oracle nodeId
        st).2.1.generating := by
  unfold handleGenerateFromNode
  rw [if_neg h]
  simp only
  split
  · -- empty prompt
    refine ⟨rfl, ?_, rfl, ?_⟩
    · intro k hk
      match k with
      | 0 => simp at hk
      | n + 1 => omega
    · simp only [List.erase_cons_head]
      exact h
  · split
    · -- missing config
      refine ⟨rfl, ?_, rfl, ?_⟩
      · intro k hk
        match k with
        | 0 => simp at hk
        | n + 1 => omega
      · simp only [List.erase_cons_head]
        exact h
    · -- provider ran (success or failure)
      refine ⟨rfl, ?_, ?_, ?_⟩
      · intro k hk
        match k with
        | 0 => simp at hk
        | n + 1 => omega
      · rw [List.getLast?_concat]
      · simp only [processChunks_generating, List.erase_cons_head]
        exact h

/-- Closed instance of C5: a fresh request on the idle state releases
the lock. -/
theorem generating_lock_witness :
    (("r" : String) ∉ ([] : List String)) ∧
    "r" ∉ (handleGenerateFromNode ⟨"m", 1, 1⟩ true (fun _ => ⟨["A"], true⟩)
      "r" idleState).2.1.generating :=
  ⟨by decide,
   (generating_lock_inserted_before_await_and_released ⟨"m", 1, 1⟩ true
     (fun _ => ⟨["A"], true⟩) "r" idleState (by decide)).2.2.2⟩

/-! ### Ephemeral streaming state (C6) -/

/-- Every event the delta loop emits is non-final. -/
theorem streamLoop_not_done (i : Nat) :
    ∀ (ds : List String) (acc : String) (e : ChunkEvent),
      e ∈ streamLoop i acc ds → e.done = false := by
  intro ds
  induction ds with
  | nil => intro acc e he; simp [streamLoop] at he
  | cons d ds ih =>
    intro acc e he
    rw [streamLoop] at he
    rcases List.mem_cons.1 he with h1 | h2
    · rw [h1]
    · exact ih (acc ++ d) e h2

/-- Folding only non-final events leaves the document tree and the
fresh-id counter untouched. -/
theorem processChunks_tree_of_not_done (nodeId : String) :
    ∀ (evs : List ChunkEvent) (st : OrchState),
      (∀ e ∈ evs, e.done = false) →
      (processChunks nodeId st evs).1.tree = st.tree ∧
      (processChunks nodeId st evs).1.counter = st.counter := by
  intro evs
  induction evs with
  | nil => intro st _; exact ⟨rfl, rfl⟩
  | cons ev evs ih =>
    intro st hall
    have hev : ev.done = false := hall ev (List.mem_cons_self _ _)
    have hrest := ih (processChunk nodeId st ev).1
      (fun e he => hall e (List.mem_cons_of_mem _ he))
    simp only [processChunks]
    have hchunk : (processChunk nodeId st ev).1.tree = st.tree ∧
        (processChunk nodeId st ev).1.counter = st.counter := by
      unfold processChunk
      rw [hev]
      exact ⟨rfl, rfl⟩
    exact ⟨hrest.1.trans hchunk.1, hrest.2.trans hchunk.2⟩

/-- C6.  A non-final chunk is recorded only in the ephemeral streaming
map — the document tree (and id counter) are untouched and no commit
action is emitted; a node is committed through `createNode` only by the
final (`isFinal = true`) callback; and a stream that fails before its
final callback (a partial/aborted generation) leaves the persisted tree
exactly as it was. -/
theorem partial_text_held_only_ephemerally (nodeId : String) (st : OrchState) :
    (∀ ev : ChunkEvent, ev.done = false →
      (processChunk nodeId st ev).1.tree = st.tree ∧
      (processChunk nodeId st ev).1.counter = st.counter ∧
      (processChunk nodeId st ev).1.streaming =
        mapSet st.streaming (streamKey nodeId ev.completionIndex) ev.text ∧
      (processChunk nodeId st ev).2 = []) ∧
    (∀ ev : ChunkEvent, ev.done = true →
      (processChunk nodeId st ev).1.tree =
        (createNode st.tree st.counter ev.text nodeId).1 ∧
      (processChunk nodeId st ev).2 = [Act.commitNode ev.text nodeId]) ∧
    (∀ (i : Nat) (run : StreamRun), run.ok = false →
      (processChunks nodeId st (generateSingleStreaming i run).1).1.tree =
        st.tree) := by
  refine ⟨?_, ?_, ?_⟩
  · intro ev hev
    unfold processChunk
    rw [hev]
    exact ⟨rfl, rfl, rfl, rfl⟩
  · intro ev hev
    unfold processChunk
    rw [hev]
    exact ⟨rfl, rfl⟩
  · intro i run hfail
    have hevs : (generateSingleStreaming i run).1 =
        streamLoop i "" run.deltas := by
      unfold generateSingleStreaming
      rw [hfail]
      rfl
    rw [hevs]
    exact (processChunks_tree_of_not_done nodeId _ st
      (fun e he => streamLoop_not_done i run.deltas "" e he)).1

/-- Closed instance of C6: a streamed partial text and an aborted stream
leave the concrete idle tree untouched. -/
theorem partial_text_held_only_ephemerally_witness :
    (processChunk "r" idleState ⟨0, "He", false⟩).1.tree = idleState.tree ∧
    (processChunks "r" idleState
      (generateSingleStreaming 0 ⟨["He"], false⟩).1).1.tree = idleState.tree :=
  ⟨((partial_text_held_only_ephemerally "r" idleState).1 ⟨0, "He", false⟩
      rfl).1,
   (partial_text_held_only_ephemerally "r" idleState).2.2 0 ⟨["He"], false⟩
     rfl⟩

/-! ### Committed nodes (C10) -/

/-- Lookup through a key-preserving value map. -/
theorem lookup_map_values (f : String → TreeNode → TreeNode) :
    ∀ (l : List (String × TreeNode)) (k : String),
      (l.map (fun p => (p.1, f p.1 p.2))).lookup k = (l.lookup k).map (f k) := by
  intro l
  induction l with
  | nil => intro k; rfl
  | cons a rest ih =>
    intro k
    simp only [List.map_cons, List.lookup]
    cases habe : (k == a.1) with
    | true =>
      have hk : k = a.1 := eq_of_beq habe
      subst hk
      simp
    | false => simp [ih]

/-- `setChildAppended` as a key-preserving value map. -/
theorem setChildAppended_eq (nodes : List (String × TreeNode))
    (pid nid : String) :
    setChildAppended nodes pid nid = nodes.map (fun p =>
      (p.1, if p.1 = pid then { p.2 with children := p.2.children ++ [nid] }
            else p.2)) := by
  unfold setChildAppended
  apply List.map_congr_left
  intro p _
  by_cases hp : p.1 = pid
  · simp [hp]
  · simp [hp]

/-- Lookup through `setChildAppended`: the same map with the matching
entry's children extended. -/
theorem lookup_setChildAppended (pid nid : String)
    (nodes : List (String × TreeNode)) (k : String) :
    (setChildAppended nodes pid nid).lookup k =
      (nodes.lookup k).map (fun v =>
        if k = pid then { v with children := v.children ++ [nid] } else v) := by
  rw [setChildAppended_eq]
  exact lookup_map_values
    (fun q v => if q = pid then { v with children := v.children ++ [nid] }
      else v) nodes k

/-- Lookup hits in the left part of an append when present there. -/
theorem lookup_append_some (k : String) (v : TreeNode) :
    ∀ (l1 l2 : List (String × TreeNode)), l1.lookup k = some v →
      (l1 ++ l2).lookup k = some v := by
  intro l1
  induction l1 with
  | nil => intro l2 h; simp [List.lookup] at h
  | cons a rest ih =>
    intro l2 h
    rw [List.cons_append, List.lookup]
    rw [List.lookup] at h
    by_cases hk : (k == a.1) = true
    · rw [hk] at h ⊢
      exact h
    · rw [Bool.not_eq_true] at hk
      rw [hk] at h ⊢
      exact ih l2 h

/-- Lookup falls through to the right part of an append when absent on
the left. -/
theorem lookup_append_none (k : String) :
    ∀ (l1 l2 : List (String × TreeNode)), l1.lookup k = none →
      (l1 ++ l2).lookup k = l2.lookup k := by
  intro l1
  induction l1 with
  | nil => intro l2 _; rfl
  | cons a rest ih =>
    intro l2 h
    rw [List.cons_append, List.lookup]
    rw [List.lookup] at h
    by_cases hk : (k == a.1) = true
    · rw [hk] at h
      exact absurd h (by simp)
    · rw [Bool.not_eq_true] at hk
      rw [hk] at h ⊢
      exact ih l2 h

/-- `createNode` on an existing parent: the parent's children gain the
fresh id at the end, and the counter advances. -/
theorem createNode_lookup_parent (t : Tree) (c : Nat)
    (text nodeId : String) (parent : TreeNode)
    (hpar : t.nodes.lookup nodeId = some parent) :
    (createNode t c text nodeId).1.nodes.lookup nodeId =
      some { parent with children := parent.children ++ [freshId c] } ∧
    (createNode t c text nodeId).2 = c + 1 := by
  unfold createNode
  rw [hpar]
  refine ⟨?_, rfl⟩
  apply lookup_append_some
  rw [lookup_setChildAppended, hpar]
  simp

/-- `createNode` registers the fresh node with the given text under the
fresh id (when that id is not already taken). -/
theorem createNode_lookup_new (t : Tree) (c : Nat)
    (text nodeId : String) (parent : TreeNode)
    (hpar : t.nodes.lookup nodeId = some parent)
    (hfresh : t.nodes.lookup (freshId c) = none) :
    (createNode t c text nodeId).1.nodes.lookup (freshId c) =
      some ⟨text, some nodeId, [], false⟩ := by
  unfold createNode
  rw [hpar]
  simp only
  rw [lookup_append_none]
  · simp [List.lookup]
  · rw [lookup_setChildAppended, hfresh]
    rfl

/-- C10.  A provider stream that terminates without yielding any delta
still produces the final callback with `isFinal = true` and the empty
string as accumulated text, and the handler's final-chunk branch then
commits a child node whose text is empty: the commit action fires with
the empty text, the parent's children gain the new id, and the stored
node's text is the empty string — an empty completion is not filtered
out. -/
theorem empty_completion_commits_empty_node
    (i : Nat) (nodeId : String) (st : OrchState) (parent : TreeNode)
    (hpar : st.tree.nodes.lookup nodeId = some parent)
    (hfresh : st.tree.nodes.lookup (freshId st.counter) = none) :
    generateSingleStreaming i ⟨[], true⟩ = ([⟨i, "", true⟩], some "") ∧
    (processChunk nodeId st ⟨i, "", true⟩).2 = [Act.commitNode "" nodeId] ∧
    (processChunk nodeId st ⟨i, "", true⟩).1.tree.nodes.lookup nodeId =
      some { parent with children := parent.children ++ [freshId st.counter] } ∧
    (processChunk nodeId st ⟨i, "", true⟩).1.tree.nodes.lookup
        (freshId st.counter) = some ⟨"", some nodeId, [], false⟩ := by
  refine ⟨rfl, rfl, ?_, ?_⟩
  · exact (createNode_lookup_parent st.tree st.counter "" nodeId parent hpar).1
  · exact createNode_lookup_new st.tree st.counter "" nodeId parent hpar hfresh

/-- Closed instance of C10 on the concrete idle state: the empty
completion creates child `gen-0` of`r` with empty text. -/
theorem empty_completion_commits_empty_node_witness :
    (processChunk "r" idleState ⟨0, "", true⟩).1.tree.nodes.lookup "gen-0" =
      some ⟨"", some "r", [], false⟩ :=
  (empty_completion_commits_empty_node 0 "r" idleState
    ⟨"hi", none, [], false⟩ rfl rfl).2.2.2

/-! ### Sequential issuance and commit order (C9) -/

/-- Chunk processing distributes over event-list concatenation. -/
theorem processChunks_append (nodeId : String) :
    ∀ (l1 l2 : List ChunkEvent) (st : OrchState),
      processChunks nodeId st (l1 ++ l2) =
        ((processChunks nodeId (processChunks nodeId st l1).1 l2).1,
         (processChunks nodeId st l1).2 ++
           (processChunks nodeId (processChunks nodeId st l1).1 l2).2) := by
  intro l1
  induction l1 with
  | nil => intro l2 st; simp [processChunks]
  | cons ev l1 ih =>
    intro l2 st
    simp only [List.cons_append, processChunks, List.append_eq]
    rw [ih]
    simp [List.append_assoc]

/-- Folding only non-final events changes nothing but the streaming
map, and emits no action. -/
theorem processChunks_not_done_state (nodeId : String) :
    ∀ (evs : List ChunkEvent) (st : OrchState),
      (∀ e ∈ evs, e.done = false) →
      ∃ sm, (processChunks nodeId st evs).1 = { st with streaming := sm } ∧
        (processChunks nodeId st evs).2 = [] := by
  intro evs
  induction evs with
  | nil => intro st _; exact ⟨st.streaming, rfl, rfl⟩
  | cons ev evs ih =>
    intro st hall
    have hev : ev.done = false := hall ev (List.mem_cons_self _ _)
    have hchunk : processChunk nodeId st ev =
        ({ st with
            streaming := mapSet st.streaming (streamKey nodeId ev.completionIndex) ev.text },
         []) := by
      unfold processChunk
      rw [hev]
      rfl
    obtain ⟨sm, hst, hacts⟩ := ih
      ({ st with
          streaming := mapSet st.streaming (streamKey nodeId ev.completionIndex) ev.text })
      (fun e he => hall e (List.mem_cons_of_mem _ he))
    refine ⟨sm, ?_, ?_⟩
    · simp only [processChunks, hchunk]
      exact hst
    · simp only [processChunks, hchunk]
      simpa using hacts

/-- One completion whose stream terminates normally: its events commit
exactly one node (the accumulated text, appended to the parent's
children under the fresh id), bump the counter once, and leave the
generating set alone. -/
theorem processChunks_ok_block (nodeId : String) (st : OrchState)
    (i : Nat) (run : StreamRun) (hok : run.ok = true) (parent : TreeNode)
    (hpar : st.tree.nodes.lookup nodeId = some parent) :
    (processChunks nodeId st (generateSingleStreaming i run).1).2 =
      [Act.commitNode (accumText "" run.deltas) nodeId] ∧
    (processChunks nodeId st
        (generateSingleStreaming i run).1).1.tree.nodes.lookup nodeId =
      some { parent with children := parent.children ++ [freshId st.counter] } ∧
    (processChunks nodeId st (generateSingleStreaming i run).1).1.counter =
      st.counter + 1 ∧
    (processChunks nodeId st (generateSingleStreaming i run).1).1.generating =
      st.generating := by
  have hevs : (generateSingleStreaming i run).1 =
      streamLoop i "" run.deltas ++
        [⟨i, accumText "" run.deltas, true⟩] := by
    unfold generateSingleStreaming
    rw [hok]
    rfl
  rw [hevs, processChunks_append]
  obtain ⟨sm, hmid, hacts⟩ := processChunks_not_done_state nodeId
    (streamLoop i "" run.deltas) st
    (fun e he => streamLoop_not_done i run.deltas "" e he)
  rw [hmid, hacts]
  have hfin : ∀ stmid : OrchState,
      processChunks nodeId stmid [⟨i, accumText "" run.deltas, true⟩] =
        ({ stmid with
            tree := (createNode stmid.tree stmid.counter
              (accumText "" run.deltas) nodeId).1,
            counter := (createNode stmid.tree stmid.counter
              (accumText "" run.deltas) nodeId).2,
            streaming := mapDelete stmid.streaming (streamKey nodeId i) },
         [Act.commitNode (accumText "" run.deltas) nodeId]) := by
    intro stmid
    simp [processChunks, processChunk]
  rw [hfin]
  refine ⟨rfl, ?_, ?_, rfl⟩
  · exact (createNode_lookup_parent st.tree st.counter
      (accumText "" run.deltas) nodeId parent hpar).1
  · exact (createNode_lookup_parent st.tree st.counter
      (accumText "" run.deltas) nodeId parent hpar).2

/-- When every completion's stream terminates normally, the sequential
loop emits exactly the per-index event blocks, concatenated in
increasing index order, and reports success. -/
theorem generateStreamingLoop_all_ok (oracle : Nat → StreamRun) :
    ∀ (k i : Nat), (∀ j, j < k → (oracle (i + j)).ok = true) →
      generateStreamingLoop oracle i k =
        (((List.range k).map (fun j =>
          (generateSingleStreaming (i + j) (oracle (i + j))).1)).flatten,
         true) := by
  intro k
  induction k with
  | zero => intro i _; rfl
  | succ k ih =>
    intro i h
    have h0 : (oracle i).ok = true := by
      have := h 0 (Nat.succ_pos k)
      simpa using this
    have hsnd : (generateSingleStreaming i (oracle i)).2 =
        some (accumText "" (oracle i).deltas) := by
      unfold generateSingleStreaming
      rw [h0]
      rfl
    have hshift : ∀ j, j < k → (oracle (i + 1 + j)).ok = true := by
      intro j hj
      have heq : i + 1 + j = i + (j + 1) := by omega
      rw [heq]
      exact h (j + 1) (by omega)
    have hmap : (List.range k).map
        ((fun j => (generateSingleStreaming (i + j) (oracle (i + j))).1) ∘
          Nat.succ) =
        (List.range k).map (fun j =>
          (generateSingleStreaming (i + 1 + j) (oracle (i + 1 + j))).1) := by
      apply List.map_congr_left
      intro j _
      have heq : i + Nat.succ j = i + 1 + j := by omega
      simp only [Function.comp_apply, heq]
    simp only [generateStreamingLoop, hsnd]
    rw [ih (i + 1) hshift]
    simp only [List.range_succ_eq_map, List.map_cons, List.map_map,
      List.flatten_cons, hmap, Nat.add_zero]

/-- Recognizer for commit actions. -/
def isCommitAct : Act → Bool
  | Act.commitNode _ _ => true
  | _ => false

/-- Folding the concatenated event blocks of `k` successful completions
(indices `i..i+k-1`): the emitted actions are exactly one commit per
index, in increasing index order, with the accumulated final texts; the
parent's children grow by `k` fresh ids; the generating set is
unchanged. -/
theorem processChunks_blocks (nodeId : String) (oracle : Nat → StreamRun) :
    ∀ (k i : Nat) (st : OrchState) (parent : TreeNode),
      (∀ j, j < k → (oracle (i + j)).ok = true) →
      st.tree.nodes.lookup nodeId = some parent →
      (processChunks nodeId st (((List.range k).map (fun j =>
          (generateSingleStreaming (i + j) (oracle (i + j))).1)).flatten)).2 =
        (List.range k).map (fun j =>
          Act.commitNode (accumText "" (oracle (i + j)).deltas) nodeId) ∧
      (∃ ids : List String, ids.length = k ∧
        (processChunks nodeId st (((List.range k).map (fun j =>
            (generateSingleStreaming (i + j)
              (oracle (i + j))).1)).flatten)).1.tree.nodes.lookup nodeId =
          some { parent with children := parent.children ++ ids }) ∧
      (processChunks nodeId st (((List.range k).map (fun j =>
          (generateSingleStreaming (i + j)
            (oracle (i + j))).1)).flatten)).1.generating = st.generating := by
  intro k
  induction k with
  | zero =>
    intro i st parent _ hpar
    refine ⟨rfl, ⟨[], rfl, ?_⟩, rfl⟩
    simpa using hpar
  | succ k ih =>
    intro i st parent h hpar
    have h0 : (oracle (i + 0)).ok = true := h 0 (Nat.succ_pos k)
    rw [Nat.add_zero] at h0
    have hshift : ∀ j, j < k → (oracle (i + 1 + j)).ok = true := by
      intro j hj
      have heq : i + 1 + j = i + (j + 1) := by omega
      rw [heq]
      exact h (j + 1) (by omega)
    have hmap : (List.range k).map
        ((fun j => (generateSingleStreaming (i + j) (oracle (i + j))).1) ∘
          Nat.succ) =
        (List.range k).map (fun j =>
          (generateSingleStreaming (i + 1 + j) (oracle (i + 1 + j))).1) := by
      apply List.map_congr_left
      intro j _
      have heq : i + Nat.succ j = i + 1 + j := by omega
      simp only [Function.comp_apply, heq]
    have hmapActs : (List.range k).map
        ((fun j => Act.commitNode (accumText "" (oracle (i + j)).deltas)
            nodeId) ∘ Nat.succ) =
        (List.range k).map (fun j =>
          Act.commitNode (accumText "" (oracle (i + 1 + j)).deltas) nodeId) := by
      apply List.map_congr_left
      intro j _
      have heq : i + Nat.succ j = i + 1 + j := by omega
      simp only [Function.comp_apply, heq]
    simp only [List.range_succ_eq_map, List.map_cons, List.map_map,
      List.flatten_cons, hmap, hmapActs, Nat.add_zero]
    rw [processChunks_append]
    obtain ⟨hacts1, hlook1, _, hgen1⟩ := processChunks_ok_block nodeId st i
      (oracle i) h0 parent hpar
    set st1 := (processChunks nodeId st
      (generateSingleStreaming i (oracle i)).1).1 with hst1
    obtain ⟨hacts2, ⟨ids2, hlen2, hlook2⟩, hgen2⟩ := ih (i + 1) st1
      { parent with children := parent.children ++ [freshId st.counter] }
      hshift hlook1
    refine ⟨?_, ⟨freshId st.counter :: ids2, by simp [hlen2], ?_⟩, ?_⟩
    · rw [hacts1, hacts2]
      rfl
    · rw [hlook2]
      simp
    · rw [hgen2, hgen1]

/-- C9.  Completions are issued strictly sequentially: the event stream
of a fully successful request is the concatenation of the per-index
blocks in increasing index order 0, 1, …, n-1 (so the final callback of
index i precedes every callback of index i+1), the request succeeds, the
commits appear in the trace in increasing completion-index order with
each index's full accumulated text, and the parent's children list gains
exactly n new ids in that order. -/
theorem completions_commit_in_index_order
    (settings : GenerationSettings) (oracle : Nat → StreamRun)
    (nodeId : String) (st : OrchState) (parent : TreeNode)
    (hok : ∀ j, j < settings.num_continuations → (oracle j).ok = true)
    (hnotgen : nodeId ∉ st.generating)
    (hpar : st.tree.nodes.lookup nodeId = some parent)
    (hprompt : isBlankLine (joinNL ((getAncestry st.tree nodeId).map
      (fun n => n.text))) = false) :
    (generateStreaming settings.num_continuations oracle).1 =
      ((List.range settings.num_continuations).map (fun j =>
        (generateSingleStreaming j (oracle j)).1)).flatten ∧
    (handleGenerateFromNode settings true oracle nodeId st).1 =
      GenResult.success ∧
    (handleGenerateFromNode settings true oracle nodeId
        st).2.2.filter isCommitAct =
      (List.range settings.num_continuations).map (fun j =>
        Act.commitNode (accumText "" (oracle j).deltas) nodeId) ∧
    ∃ ids : List String, ids.length = settings.num_continuations ∧
      (handleGenerateFromNode settings true oracle nodeId
          st).2.1.tree.nodes.lookup nodeId =
        some { parent with children := parent.children ++ ids } := by
  have hok0 : ∀ j, j < settings.num_continuations →
      (oracle (0 + j)).ok = true := by
    intro j hj
    rw [Nat.zero_add]
    exact hok j hj
  have hloop := generateStreamingLoop_all_ok oracle
    settings.num_continuations 0 hok0
  have hgen : generateStreaming settings.num_continuations oracle =
      (((List.range settings.num_continuations).map (fun j =>
        (generateSingleStreaming (0 + j) (oracle (0 + j))).1)).flatten,
       true) := hloop
  have hzero : ((List.range settings.num_continuations).map (fun j =>
      (generateSingleStreaming (0 + j) (oracle (0 + j))).1)) =
      ((List.range settings.num_continuations).map (fun j =>
        (generateSingleStreaming j (oracle j)).1)) := by
    apply List.map_congr_left
    intro j _
    rw [Nat.zero_add]
  have hevs : (generateStreaming settings.num_continuations oracle).1 =
      ((List.range settings.num_continuations).map (fun j =>
        (generateSingleStreaming (0 + j) (oracle (0 + j))).1)).flatten := by
    rw [hgen]
  have hsucc : (generateStreaming settings.num_continuations oracle).2 =
      true := by
    rw [hgen]
  have hunfold : handleGenerateFromNode settings true oracle nodeId st =
      ((if (generateStreaming settings.num_continuations oracle).2 then
          GenResult.success else GenResult.providerError),
       { (processChunks nodeId
            { st with generating := nodeId :: st.generating }
            (generateStreaming settings.num_continuations oracle).1).1 with
          generating := (processChunks nodeId
            { st with generating := nodeId :: st.generating }
            (generateStreaming settings.num_continuations
              oracle).1).1.generating.erase nodeId },
       [Act.addGenerating nodeId, Act.readAncestry nodeId,
        Act.awaitProvider] ++
         (processChunks nodeId
           { st with generating := nodeId :: st.generating }
           (generateStreaming settings.num_continuations oracle).1).2 ++
         [Act.removeGenerating nodeId]) := by
    unfold handleGenerateFromNode
    rw [if_neg hnotgen]
    simp only [hprompt, Bool.false_eq_true, if_false, not_true,
      Bool.not_eq_true]
  obtain ⟨hacts, ⟨ids, hlen, hlook⟩, -⟩ := processChunks_blocks nodeId
    oracle settings.num_continuations 0
    { st with generating := nodeId :: st.generating } parent hok0 hpar
  rw [← hevs] at hacts hlook
  have hactszero : (List.range settings.num_continuations).map (fun j =>
      Act.commitNode (accumText "" (oracle (0 + j)).deltas) nodeId) =
      (List.range settings.num_continuations).map (fun j =>
        Act.commitNode (accumText "" (oracle j).deltas) nodeId) := by
    apply List.map_congr_left
    intro j _
    rw [Nat.zero_add]
  refine ⟨by rw [hevs, hzero], ?_, ?_, ⟨ids, hlen, ?_⟩⟩
  · rw [hunfold]
    simp [hsucc]
  · rw [hunfold]
    simp only [List.filter_append, hacts, hactszero]
    simp only [isCommitAct, List.filter_map]
    have hcomp : (isCommitAct ∘ fun j =>
        Act.commitNode (accumText "" (oracle j).deltas) nodeId) =
        fun _ => true := by
      funext j
      rfl
    rw [hcomp]
    simp [isCommitAct]
  · rw [hunfold]
    exact hlook

/-- A concrete two-continuation oracle whose streams both succeed. -/
def okOracle : Nat → StreamRun :=
  fun j => if j = 0 then ⟨["A"], true⟩ else ⟨["B", "C"], true⟩

/-- Closed instance of C9: two successful completions on the idle state
commit in index order 0, 1 with their accumulated texts. -/
theorem completions_commit_in_index_order_witness :
    (handleGenerateFromNode ⟨"m", 2, 1⟩ true okOracle "r"
        idleState).2.2.filter isCommitAct =
      [Act.commitNode "A" "r", Act.commitNode "BC" "r"] ∧
    ∃ ids : List String, ids.length = 2 ∧
      (handleGenerateFromNode ⟨"m", 2, 1⟩ true okOracle "r"
          idleState).2.1.tree.nodes.lookup "r" =
        some ⟨"hi", none, ([] : List String) ++ ids, false⟩ :=
  ⟨by
    have h := (completions_commit_in_index_order ⟨"m", 2, 1⟩ okOracle "r"
      idleState ⟨"hi", none, [], false⟩ (by decide) (by decide) rfl
      rfl).2.2.1
    rw [h]
    rfl,
   (completions_commit_in_index_order ⟨"m", 2, 1⟩ okOracle "r"
     idleState ⟨"hi", none, [], false⟩ (by decide) (by decide) rfl
     rfl).2.2.2⟩

/-! ### Failure isolation between sibling completions (C1) -/

/-- Every delta event of one completion carries that completion's
index. -/
theorem streamLoop_index (i : Nat) :
    ∀ (ds : List String) (acc : String) (e : ChunkEvent),
      e ∈ streamLoop i acc ds → e.completionIndex = i := by
  intro ds
  induction ds with
  | nil => intro acc e he; simp [streamLoop] at he
  | cons d ds ih =>
    intro acc e he
    rw [streamLoop] at he
    rcases List.mem_cons.1 he with h1 | h2
    · rw [h1]
    · exact ih (acc ++ d) e h2

/-- Every event of one completion's stream carries its index. -/
theorem generateSingleStreaming_index (i : Nat) (run : StreamRun)
    (e : ChunkEvent) (he : e ∈ (generateSingleStreaming i run).1) :
    e.completionIndex = i := by
  unfold generateSingleStreaming at he
  cases hok : run.ok with
  | true =>
    rw [hok] at he
    simp only [if_pos rfl] at he
    rcases List.mem_append.1 he with h1 | h2
    · exact streamLoop_index i run.deltas "" e h1
    · simp only [List.mem_singleton] at h2
      rw [h2]
  | false =>
    rw [hok] at he
    simp only [Bool.false_eq_true, if_false] at he
    exact streamLoop_index i run.deltas "" e he

/-- A concrete oracle whose completion 0 fails immediately while
completion 1 would succeed with text `B`. -/
def failFirstOracle : Nat → StreamRun :=
  fun i => if i = 0 then ⟨[], false⟩ else ⟨["B"], true⟩

/-- C1 (counterexample).  With two requested continuations where
completion 0's stream throws immediately and completion 1's stream would
succeed, the sequential service loop aborts the whole request: it
reports failure and emits no events at all — completion 1 is never
attempted (no callback carries index 1, so no final callback can commit
its node), even though, had it been attempted alone, it would have
produced its delta and final events. -/
theorem one_failure_aborts_siblings_counterexample :
    (generateStreaming 2 failFirstOracle).1 = [] ∧
    (generateStreaming 2 failFirstOracle).2 = false ∧
    (generateSingleStreaming 1 (failFirstOracle 1)).1 =
      [⟨1, "B", false⟩, ⟨1, "B", true⟩] :=
  ⟨rfl, rfl, rfl⟩

/-- The sequential loop up to the first failing index: the blocks of the
successful earlier indexes, then the failing index's partial events,
then nothing. -/
theorem generateStreamingLoop_fail (oracle : Nat → StreamRun) :
    ∀ (k i0 i : Nat), i0 ≤ i → i < i0 + k → (oracle i).ok = false →
      (∀ j, i0 ≤ j → j < i → (oracle j).ok = true) →
      generateStreamingLoop oracle i0 k =
        ((((List.range (i - i0)).map (fun j =>
            (generateSingleStreaming (i0 + j) (oracle (i0 + j))).1)).flatten)
          ++ streamLoop i "" (oracle i).deltas,
         false) := by
  intro k
  induction k with
  | zero => intro i0 i h1 h2 _ _; omega
  | succ k ih =>
    intro i0 i h1 h2 hfail hbefore
    by_cases hcase : i = i0
    · subst hcase
      have hsnd : (generateSingleStreaming i (oracle i)).2 = none := by
        unfold generateSingleStreaming
        rw [hfail]
        rfl
      have hfst : (generateSingleStreaming i (oracle i)).1 =
          streamLoop i "" (oracle i).deltas := by
        unfold generateSingleStreaming
        rw [hfail]
        rfl
      simp only [generateStreamingLoop, hsnd, hfst]
      simp
    · have hlt : i0 < i := lt_of_le_of_ne h1 (fun h => hcase h.symm)
      have h0 : (oracle i0).ok = true := hbefore i0 (le_refl i0) hlt
      have hsnd : (generateSingleStreaming i0 (oracle i0)).2 =
          some (accumText "" (oracle i0).deltas) := by
        unfold generateSingleStreaming
        rw [h0]
        rfl
      have hrest := ih (i0 + 1) i (by omega) (by omega) hfail
        (fun j hj1 hj2 => hbefore j (by omega) hj2)
      have hmap : (List.range (i - (i0 + 1))).map
          ((fun j => (generateSingleStreaming (i0 + j) (oracle (i0 + j))).1) ∘
            Nat.succ) =
          (List.range (i - (i0 + 1))).map (fun j =>
            (generateSingleStreaming (i0 + 1 + j) (oracle (i0 + 1 + j))).1) := by
        apply List.map_congr_left
        intro j _
        have heq : i0 + Nat.succ j = i0 + 1 + j := by omega
        simp only [Function.comp_apply, heq]
      have hrange : i - i0 = (i - (i0 + 1)) + 1 := by omega
      simp only [generateStreamingLoop, hsnd]
      rw [hrest, hrange]
      simp only [List.range_succ_eq_map, List.map_cons, List.map_map,
        List.flatten_cons, hmap, Nat.add_zero]
      simp [List.append_assoc]

/-- C1 (amended).  Completions are issued strictly sequentially and a
failure is not isolated: if the stream of completion index `i` fails
(and the earlier indexes succeed), the whole request reports failure,
its event sequence is exactly the blocks of indexes `0..i-1` followed by
index `i`'s partial (non-final) events, and no callback of any index
greater than `i` is ever invoked — the remaining sibling completions are
not attempted.  Completions before `i` keep their events (and hence
their commits). -/
theorem completion_failure_aborts_remaining_amended
    (n : Nat) (oracle : Nat → StreamRun) (i : Nat)
    (hi : i < n) (hfail : (oracle i).ok = false)
    (hbefore : ∀ j, j < i → (oracle j).ok = true) :
    (generateStreaming n oracle).2 = false ∧
    (generateStreaming n oracle).1 =
      (((List.range i).map (fun j =>
        (generateSingleStreaming j (oracle j)).1)).flatten)
        ++ streamLoop i "" (oracle i).deltas ∧
    (∀ e ∈ (generateStreaming n oracle).1, e.completionIndex ≤ i) := by
  have hloop := generateStreamingLoop_fail oracle n 0 i (Nat.zero_le i)
    (by omega) hfail (fun j _ hj => hbefore j hj)
  have hzero : (List.range (i - 0)).map (fun j =>
      (generateSingleStreaming (0 + j) (oracle (0 + j))).1) =
      (List.range i).map (fun j =>
        (generateSingleStreaming j (oracle j)).1) := by
    rw [Nat.sub_zero]
    apply List.map_congr_left
    intro j _
    rw [Nat.zero_add]
  have hgen : generateStreaming n oracle =
      ((((List.range i).map (fun j =>
        (generateSingleStreaming j (oracle j)).1)).flatten)
        ++ streamLoop i "" (oracle i).deltas, false) := by
    unfold generateStreaming
    rw [hloop, hzero]
  refine ⟨by rw [hgen], by rw [hgen], ?_⟩
  intro e he
  rw [hgen] at he
  rcases List.mem_append.1 he with h1 | h2
  · obtain ⟨l, hl, hel⟩ := List.mem_flatten.1 h1
    obtain ⟨j, hj, rfl⟩ := List.mem_map.1 hl
    have := generateSingleStreaming_index j (oracle j) e hel
    rw [this]
    exact le_of_lt (List.mem_range.1 hj)
  · rw [streamLoop_index i (oracle i).deltas "" e h2]

/-- Closed instance of the amended C1 theorem at the concrete failing
oracle: the request fails with only completion 0's (empty) partial
events. -/
theorem completion_failure_aborts_remaining_amended_witness :
    (generateStreaming 2 failFirstOracle).2 = false ∧
    (generateStreaming 2 failFirstOracle).1 =
      (((List.range 0).map (fun j =>
        (generateSingleStreaming j (failFirstOracle j)).1)).flatten)
        ++ streamLoop 0 "" (failFirstOracle 0).deltas ∧
    (∀ e ∈ (generateStreaming 2 failFirstOracle).1,
      e.completionIndex ≤ 0) :=
  completion_failure_aborts_remaining_amended 2 failFirstOracle 0
    (by decide) rfl (fun j hj => absurd hj (Nat.not_lt_zero j))

end WebLoom
